import Mathlib

/-!
Verification development for the lz4ultra compressor/verifier.

The block decoder is embedded from `src/expand.c`
(`lz4ultra_expand_literals_slow`, `lz4ultra_expand_match_slow`,
`lz4ultra_decompressor_expand_block_lz4`), and the command-line driver
(compress / decompress / compare loops and the tail of `main`) from `main.c`.

Byte buffers are modelled as total functions `Nat → Nat` (the C output
buffer, including its uninitialised tail, is a parameter), compressed
blocks as `List Nat`, and C pointers as indices.  Pointer comparisons that
can underflow in C (`pInBlock + nBlockSize - 16`, `pOutDataEnd - 20`) are
carried out in `Int`.
-/

/-- Constants from `format.h` (modelled from the spec: the literals/match
run-length nibble limit is 15 and the minimum match size is 4; `format.h`
itself is not part of the presented sources, but every use site in
`expand.c` and the spec fixes these values). -/
def LITERALS_RUN_LEN : Nat := 15

/-- Match-nibble run-length limit, see `LITERALS_RUN_LEN`. -/
def MATCH_RUN_LEN : Nat := 15

/-- Minimum encoded match length, added to the match nibble. -/
def MIN_MATCH_SIZE : Nat := 4

/-- An output byte buffer: a total map from absolute index to byte value.
Index 0 is `pOutData`, the base of the decompression buffer. -/
abbrev Buf : Type := Nat → Nat

/-- The all-zero buffer, used as a concrete initial buffer in examples. -/
def bufZero : Buf := fun _ => 0

/-- Two buffers agree strictly below index `p`. -/
def agreeBelow (p : Nat) (b1 b2 : Buf) : Prop := ∀ j, j < p → b1 j = b2 j

/-- `memcpy(dst, src, n)` inside one buffer for non-overlapping ranges:
all source bytes are read before any destination byte is written. -/
def memcpyN (b : Buf) (dst src n : Nat) : Buf :=
  fun j => if dst ≤ j ∧ j < dst + n then b (src + (j - dst)) else b j

/-- `memcpy(pCurOutData, pInBlock, n)`: copy `n` bytes of the compressed
input (starting at index `src`) into the buffer at index `dst`. -/
def writeLits (b : Buf) (dst : Nat) (inp : List Nat) (src n : Nat) : Buf :=
  fun j => if dst ≤ j ∧ j < dst + n then inp.getD (src + (j - dst)) 0 else b j

/-- The `do { nByte = *pInBlock++; n += nByte; } while (nByte == 255)`
run-length chain of `lz4ultra_expand_literals_slow` /
`lz4ultra_expand_match_slow`, reading from the remaining input bytes.
Returns (number of bytes consumed, accumulated length).  A chain that
reaches the end of the block simply stops (the C loop `break`s). -/
def readChainL : List Nat → Nat → Nat × Nat
  | [], acc => (0, acc)
  | byte :: rest, acc =>
    if byte = 255 then
      let r := readChainL rest (acc + 255)
      (r.1 + 1, r.2)
    else (1, acc + byte)

/-- The shared `if (n == RUN_LEN) { 0xFF chain }` stanza at the head of
`lz4ultra_expand_literals_slow` and `lz4ultra_expand_match_slow`:
returns the input index after the chain and the extended run length
(or the unchanged pair when the nibble is below the limit). -/
def runChain (inp : List Nat) (i n limit : Nat) : Nat × Nat :=
  if n = limit then
    let r := readChainL (inp.drop i) n
    (i + r.1, r.2)
  else (i, n)

/-- `lz4ultra_expand_literals_slow` from `expand.c`: optionally extend the
literal count through the 0xFF chain, then bounds-check and copy the
literal bytes.  Returns the new input index, output position and buffer,
or `none` for the C `return -1`. -/
def lz4ultra_expand_literals_slow (inp : List Nat) (i nLiterals pos : Nat)
    (b : Buf) (outEnd : Nat) : Option (Nat × Nat × Buf) :=
  let s := runChain inp i nLiterals LITERALS_RUN_LEN
  if s.2 ≠ 0 then
    if s.1 + s.2 ≤ inp.length ∧ pos + s.2 ≤ outEnd then
      some (s.1 + s.2, pos + s.2, writeLits b pos inp s.1 s.2)
    else none
  else some (s.1, pos, b)

/-- The byte-at-a-time match copy of `lz4ultra_expand_match_slow` (the two
trailing `while` loops, which copy strictly one byte after another and so
implement overlapping RLE matches). -/
def byteCopy (b : Buf) (src dst : Nat) : Nat → Buf
  | 0 => b
  | Nat.succ n => byteCopy (fun j => if j = dst then b src else b j) (src + 1) (dst + 1) n

/-- The 16-bytes-per-iteration `do/while` copy of
`lz4ultra_expand_match_slow` (two 8-byte `memcpy`s per chunk; requires
offset ≥ 8 so neither `memcpy` self-overlaps). -/
def chunkCopy (b : Buf) (src dst endDst : Nat) : Buf :=
  let b1 := memcpyN (memcpyN b dst src 8) (dst + 8) (src + 8) 8
  if h : dst + 16 < endDst then chunkCopy b1 (src + 16) (dst + 16) endDst else b1
termination_by endDst - dst
decreasing_by omega

/-- `lz4ultra_expand_match_slow` from `expand.c`: optionally extend the
match length through the 0xFF chain, add `MIN_MATCH_SIZE`, bounds-check,
then copy with the chunked fast path or the byte-sequential path. -/
def lz4ultra_expand_match_slow (inp : List Nat) (i src nMatchLen pos : Nat)
    (b : Buf) (outEnd : Nat) (outFastEnd : Int) : Option (Nat × Nat × Buf) :=
  let s := runChain inp i nMatchLen MATCH_RUN_LEN
  let mlen := s.2 + MIN_MATCH_SIZE
  if pos + mlen ≤ outEnd then
    if 8 ≤ pos - src ∧ (pos + mlen : Int) ≤ outFastEnd then
      some (s.1, pos + mlen, chunkCopy b src pos (pos + mlen))
    else
      some (s.1, pos + mlen, byteCopy b src pos mlen)
  else none

/-- The slow loop of `lz4ultra_decompressor_expand_block_lz4`
(`while (pInBlock < pInBlockEnd)`), fuelled; `inp.length + 1` fuel is
always enough since every iteration consumes at least the token byte. -/
def slowLoop (inp : List Nat) (outEnd : Nat) (outFastEnd : Int) :
    Nat → Nat → Nat → Buf → Option (Nat × Buf)
  | 0, _, _, _ => none
  | Nat.succ fuel, i, pos, b =>
    if i < inp.length then
      let token := inp.getD i 0
      match lz4ultra_expand_literals_slow inp (i + 1) (token / 16) pos b outEnd with
      | none => none
      | some (i2, pos2, b2) =>
        if i2 + 1 < inp.length then
          let off := inp.getD i2 0 + 256 * inp.getD (i2 + 1) 0
          if off ≤ pos2 then
            match lz4ultra_expand_match_slow inp (i2 + 2) (pos2 - off) (token % 16) pos2 b2 outEnd outFastEnd with
            | none => none
            | some (i3, pos3, b3) => slowLoop inp outEnd outFastEnd fuel i3 pos3 b3
          else none
        else
          slowLoop inp outEnd outFastEnd fuel i2 pos2 b2
    else some (pos, b)

/-- The slow loop with the additional check that every match offset is
nonzero.  Valid LZ4 streams never encode offset 0 (the spec's data model
requires `1 ≤ offset`); the C decoder does not reject it, and an offset-0
match makes the output depend on not-yet-written buffer bytes.  This
variant is used as the side condition of the amended fast/slow
equivalence. -/
def slowLoopStrict (inp : List Nat) (outEnd : Nat) (outFastEnd : Int) :
    Nat → Nat → Nat → Buf → Option (Nat × Buf)
  | 0, _, _, _ => none
  | Nat.succ fuel, i, pos, b =>
    if i < inp.length then
      let token := inp.getD i 0
      match lz4ultra_expand_literals_slow inp (i + 1) (token / 16) pos b outEnd with
      | none => none
      | some (i2, pos2, b2) =>
        if i2 + 1 < inp.length then
          let off := inp.getD i2 0 + 256 * inp.getD (i2 + 1) 0
          if off ≤ pos2 ∧ off ≠ 0 then
            match lz4ultra_expand_match_slow inp (i2 + 2) (pos2 - off) (token % 16) pos2 b2 outEnd outFastEnd with
            | none => none
            | some (i3, pos3, b3) => slowLoopStrict inp outEnd outFastEnd fuel i3 pos3 b3
          else none
        else
          slowLoopStrict inp outEnd outFastEnd fuel i2 pos2 b2
    else some (pos, b)

/-- The three unconditional `memcpy`s (8 + 8 + 4 bytes) of the fast-loop
inline match copy in `lz4ultra_decompressor_expand_block_lz4`. -/
def fastMatchCopy (b : Buf) (src dst : Nat) : Buf :=
  memcpyN (memcpyN (memcpyN b dst src 8) (dst + 8) (src + 8) 8) (dst + 16) (src + 16) 4

/-- The fast loop of `lz4ultra_decompressor_expand_block_lz4`
(`while (pInBlock < pInBlockFastEnd && pCurOutData < pOutDataFastEnd)`)
followed, once its guard fails, by the slow loop.  The fast loop copies
16 literal bytes unconditionally when the literals nibble is < 15, and
20 match bytes unconditionally when the match nibble is < 15, the offset
is ≥ 8 and the output cursor is before `pOutDataFastEnd`. -/
def runFrom (inp : List Nat) (outEnd : Nat) (outFastEnd : Int) :
    Nat → Nat → Nat → Buf → Option (Nat × Buf)
  | 0, _, _, _ => none
  | Nat.succ fuel, i, pos, b =>
    if (i : Int) < (inp.length : Int) - 16 ∧ (pos : Int) < outFastEnd then
      let token := inp.getD i 0
      let step1 : Option (Nat × Nat × Buf) :=
        if token / 16 < LITERALS_RUN_LEN then
          some (i + 1 + token / 16, pos + token / 16, writeLits b pos inp (i + 1) 16)
        else
          lz4ultra_expand_literals_slow inp (i + 1) (token / 16) pos b outEnd
      match step1 with
      | none => none
      | some (i2, pos2, b2) =>
        if i2 + 1 < inp.length then
          let off := inp.getD i2 0 + 256 * inp.getD (i2 + 1) 0
          if off ≤ pos2 then
            if token % 16 < MATCH_RUN_LEN ∧ 8 ≤ off ∧ (pos2 : Int) < outFastEnd then
              runFrom inp outEnd outFastEnd fuel (i2 + 2) (pos2 + (MIN_MATCH_SIZE + token % 16))
                (fastMatchCopy b2 (pos2 - off) pos2)
            else
              match lz4ultra_expand_match_slow inp (i2 + 2) (pos2 - off) (token % 16) pos2 b2 outEnd outFastEnd with
              | none => none
              | some (i3, pos3, b3) => runFrom inp outEnd outFastEnd fuel i3 pos3 b3
          else none
        else
          runFrom inp outEnd outFastEnd fuel i2 pos2 b2
    else
      slowLoop inp outEnd outFastEnd (Nat.succ fuel) i pos b

/-- `lz4ultra_decompressor_expand_block_lz4` from `expand.c`: decompress
one block.  `none` models the C return value -1; `some (sz, b)` models a
return value `sz` with final buffer `b` (the decompressed bytes sit at
indices `nOutDataOffset ..< nOutDataOffset + sz`). -/
def lz4ultra_decompressor_expand_block_lz4 (inp : List Nat)
    (nOutDataOffset nBlockMaxSize : Nat) (b : Buf) : Option (Nat × Buf) :=
  let outEnd := nOutDataOffset + nBlockMaxSize
  (runFrom inp outEnd ((outEnd : Int) - 20) (inp.length + 1) 0 nOutDataOffset b).map
    fun r => (r.1 - nOutDataOffset, r.2)

/-- The same decoder but processing every token with the slow loop only
(the fast loop skipped), the comparison point of the spec's refinement
claim. -/
def expandBlockSlowOnly (inp : List Nat) (nOutDataOffset nBlockMaxSize : Nat)
    (b : Buf) : Option (Nat × Buf) :=
  let outEnd := nOutDataOffset + nBlockMaxSize
  (slowLoop inp outEnd ((outEnd : Int) - 20) (inp.length + 1) 0 nOutDataOffset b).map
    fun r => (r.1 - nOutDataOffset, r.2)

/-- The slow-loop-only decoder with the strict nonzero-offset check. -/
def expandBlockStrict (inp : List Nat) (nOutDataOffset nBlockMaxSize : Nat)
    (b : Buf) : Option (Nat × Buf) :=
  let outEnd := nOutDataOffset + nBlockMaxSize
  (slowLoopStrict inp outEnd ((outEnd : Int) - 20) (inp.length + 1) 0 nOutDataOffset b).map
    fun r => (r.1 - nOutDataOffset, r.2)

/-- Extract the observable result of a decode: the returned size together
with the decompressed bytes (the buffer contents from `nOutDataOffset`). -/
def decodedBytes (nOutDataOffset : Nat) (r : Nat × Buf) : Nat × List Nat :=
  (r.1, (List.range r.1).map fun k => r.2 (nOutDataOffset + k))

/-- Observable result of the full (fast + slow loop) decoder. -/
def expandBlockBytes (inp : List Nat) (o m : Nat) (b : Buf) : Option (Nat × List Nat) :=
  (lz4ultra_decompressor_expand_block_lz4 inp o m b).map (decodedBytes o)

/-- Observable result of the slow-loop-only decoder. -/
def slowOnlyBytes (inp : List Nat) (o m : Nat) (b : Buf) : Option (Nat × List Nat) :=
  (expandBlockSlowOnly inp o m b).map (decodedBytes o)

/-- Number of bytes written by one execution of the chunked `do/while`
copy loop (16 per iteration; at least one iteration). -/
def chunkSpan (dst endDst : Nat) : Nat :=
  if h : dst + 16 < endDst then 16 + chunkSpan (dst + 16) endDst else 16
termination_by endDst - dst
decreasing_by omega

/-- Periodic fill: the common specification of all the match-copy loops.
Bytes `dst ..< dst + w` become the periodic extension, with period
`dst - src`, of the bytes `src ..< dst`; everything else is untouched. -/
def perFill (b : Buf) (src dst w : Nat) : Buf :=
  fun j => if dst ≤ j ∧ j < dst + w then b (src + (j - dst) % (dst - src)) else b j

/- ----------------------------------------------------------------- -/
/- Command-line driver, embedded from `main.c`.                      -/
/- ----------------------------------------------------------------- -/

/-- Raw-block-mode compression errors of `lz4ultra_compress` in `main.c`
(`raw blocks can only be used with files <= 64 Kb`, and
`data is incompressible`).  I/O failures are not modelled. -/
inductive CompErr
  | tooLarge
  | uncompressed
deriving DecidableEq, Repr

/-- The 7-byte frame header written by `lz4ultra_compress` in `main.c`:
magic `04 22 4D 18`, flags `0b01000000`, block-max byte `4 << 4`, and the
hardcoded header checksum byte `0xC0`. -/
def frameHeader : List Nat := [0x04, 0x22, 0x4D, 0x18, 0b01000000, 4 <<< 4, 0xC0]

/-- The 4-byte little-endian block header for a compressed block
(`cBlockSize[3] = (n >> 24) & 0x7f`). -/
def le32 (n : Nat) : List Nat :=
  [n % 256, n / 256 % 256, n / 65536 % 256, n / 16777216 % 128]

/-- The 4-byte little-endian block header for an uncompressed literal
block (high bit of the last byte set). -/
def le32u (n : Nat) : List Nat :=
  [n % 256, n / 256 % 256, n / 65536 % 256, n / 16777216 % 128 + 128]

/-- The `fread(pInData + BLOCK_SIZE, 1, BLOCK_SIZE, f_in)` loop of
`lz4ultra_compress`: the input file is consumed in chunks of
`BLOCK_SIZE` = 65536 bytes, the last chunk possibly short. -/
def chunkList (l : List Nat) : List (List Nat) :=
  if h : l = [] then [] else l.take 65536 :: chunkList (l.drop 65536)
termination_by l.length
decreasing_by
  simp only [List.length_drop]
  have : 0 < l.length := List.length_pos.mpr h
  omega

/-- The per-chunk compression loop of `lz4ultra_compress` in `main.c`.
`shrink prev cur` abstracts `lz4ultra_shrink_block` (whose source is not
part of the presented files): `some comp` is a successful compression of
`cur` against the previous chunk `prev`, `none` is the negative
(incompressible) return.  Produces the concatenated block bytes of the
stream body.  In raw mode a second non-empty chunk is the
`raw blocks can only be used with files <= 64 Kb` error, and an
incompressible chunk is the `data is incompressible` error. -/
def compressChunks (shrink : List Nat → List Nat → Option (List Nat)) (raw : Bool) :
    List (List Nat) → List Nat → Except CompErr (List Nat)
  | [], _ => Except.ok []
  | chunk :: rest, prevChunk =>
    if chunk.length ≠ 0 then
      if prevChunk.length ≠ 0 ∧ raw = true then Except.error CompErr.tooLarge
      else
        match shrink prevChunk chunk with
        | some comp =>
          (compressChunks shrink raw rest chunk).map
            (fun body => (if raw then [] else le32 comp.length) ++ comp ++ body)
        | none =>
          if raw then Except.error CompErr.uncompressed
          else
            (compressChunks shrink raw rest chunk).map
              (fun body => le32u chunk.length ++ chunk ++ body)
    else compressChunks shrink raw rest prevChunk

/-- `lz4ultra_compress` from `main.c` (file I/O abstracted away): the
whole output stream — frame header (framed mode), block bytes, and the
4-byte (framed) or 2-byte (raw) zero footer. -/
def lz4ultra_compress (shrink : List Nat → List Nat → Option (List Nat))
    (input : List Nat) (raw : Bool) : Except CompErr (List Nat) :=
  (compressChunks shrink raw (chunkList input) []).map
    fun body => (if raw then [] else frameHeader) ++ body ++
      (if raw then [0, 0] else [0, 0, 0, 0])

/-- Whether a compression result is a success. -/
def compressOk (e : Except CompErr (List Nat)) : Bool :=
  match e with
  | Except.ok _ => true
  | Except.error _ => false

/-- The buffer state of `lz4ultra_decompress` at the start of a block:
the previously decompressed block occupies the bytes just below index
`BLOCK_SIZE` = 65536 (the `memcpy(pOutData + BLOCK_SIZE - nPrev, ...)`
sliding step); the rest of the malloc'd buffer is modelled as zero. -/
def prevBlockBuf (prevBlk : List Nat) : Buf :=
  fun j => if 65536 - prevBlk.length ≤ j ∧ j < 65536 then
             prevBlk.getD (j - (65536 - prevBlk.length)) 0
           else 0

/-- The block loop of `lz4ultra_decompress` in `main.c` (framed mode):
read a 4-byte little-endian block header (a short read counts as block
size 0), stop successfully on block size 0, read the payload (a short
read stops successfully), pass literal blocks through, expand compressed
blocks (a negative return is the decompression error), and slide the
decompressed block down for the next iteration. -/
def lz4ultra_decompress_loop :
    Nat → List Nat → List Nat → List Nat → Option (List Nat)
  | 0, _, _, _ => none
  | Nat.succ fuel, rem, prevBlk, out =>
    let hdr := rem.take 4
    let nBlockSize := if hdr.length = 4 then
        hdr.getD 0 0 + 256 * hdr.getD 1 0 + 65536 * hdr.getD 2 0 + 16777216 * hdr.getD 3 0
      else 0
    if nBlockSize ≠ 0 then
      let sz := nBlockSize % 2147483648
      let payload := (rem.drop 4).take sz
      if payload.length = sz then
        if 2147483648 ≤ nBlockSize then
          lz4ultra_decompress_loop fuel ((rem.drop 4).drop sz) payload (out ++ payload)
        else
          match lz4ultra_decompressor_expand_block_lz4 payload 65536 65536 (prevBlockBuf prevBlk) with
          | none => none
          | some (dsz, b) =>
            let decoded := (List.range dsz).map fun k => b (65536 + k)
            if dsz ≠ 0 then
              lz4ultra_decompress_loop fuel ((rem.drop 4).drop sz) decoded (out ++ decoded)
            else
              lz4ultra_decompress_loop fuel ((rem.drop 4).drop sz) prevBlk out
      else some out
    else some out

/-- `lz4ultra_decompress` from `main.c`, framed mode: check the 7 header
bytes against the fixed frame header, then run the block loop.  `none`
models the non-zero exit paths, `some out` a successful run writing
`out`. -/
def lz4ultra_decompress (input : List Nat) : Option (List Nat) :=
  if 7 ≤ input.length ∧ input.take 7 = frameHeader then
    lz4ultra_decompress_loop (input.length + 1) (input.drop 7) [] []
  else none

/-- The comparison bookkeeping of `lz4ultra_compare` in `main.c`:
`blocks` are the successively decoded block contents (the decode/transport
of each block is abstracted), `orig` the original file, compared in
chunks of `BLOCK_SIZE` = 65536 bytes.  `nKnownGoodSize` is set to the
running original size just before each size-matched comparison; on a
mismatch the error reports it.  Returns `none` for success and
`some reportedOffset` for a comparison error. -/
def lz4ultra_compare_loop :
    List (List Nat) → List Nat → Nat → Nat → Option Nat
  | [], _, _, _ => none
  | blk :: rest, orig, knownGood, origSize =>
    let chunk := orig.take 65536
    if blk.length = chunk.length then
      if blk = chunk then
        lz4ultra_compare_loop rest (orig.drop 65536) origSize (origSize + blk.length)
      else some origSize
    else some knownGood

/-- The tail of `main` in `main.c` (the command dispatch).  In the `'z'`
branch `nResult` is computed from `lz4ultra_compress` (and, on success
with `-c`, from `lz4ultra_compare`) but is never returned: control falls
off the closing brace of `main`, which in C yields exit status 0. -/
def mainExit (cCommand : Char) (bVerifyCompression : Bool)
    (compressResult compareResult decompressResult : Nat) : Nat :=
  if cCommand = 'z' then
    let nResult := compressResult
    let nResult := if nResult = 0 && bVerifyCompression then compareResult else nResult
    let _ := nResult
    0
  else if cCommand = 'd' then
    decompressResult
  else 100

example : expandBlockBytes [0x00] 0 4 bufZero = some (0, []) := by decide

example : slowOnlyBytes [0x20, 7, 9] 0 30 bufZero = some (2, [7, 9]) := by decide

/- ----------------------------------------------------------------- -/
/- Helper lemmas.                                                    -/
/- ----------------------------------------------------------------- -/

theorem readChainL_all255 (l : List Nat) (acc : Nat) (h : ∀ x ∈ l, x = 255) :
    readChainL l acc = (l.length, acc + 255 * l.length) := by
  induction l generalizing acc with
  | nil => simp [readChainL]
  | cons x rest ih =>
    have hx : x = 255 := h x (by simp)
    have hr : ∀ y ∈ rest, y = 255 := fun y hy => h y (by simp [hy])
    simp only [readChainL, hx, eq_self_iff_true, if_true, ih (acc + 255) hr,
      List.length_cons, Prod.mk.injEq, true_and]
    omega

theorem readChainL_chain (c t : Nat) (rest : List Nat) (acc : Nat) (ht : t ≠ 255) :
    readChainL (List.replicate c 255 ++ t :: rest) acc = (c + 1, acc + 255 * c + t) := by
  induction c generalizing acc with
  | zero => simp [readChainL, ht]
  | succ c ih =>
    simp only [List.replicate_succ, List.cons_append, readChainL, eq_self_iff_true, if_true,
      List.append_eq, ih (acc + 255), Prod.mk.injEq, true_and]
    omega


theorem memcpyN_perFill (b : Buf) (src dst n : Nat) (h1 : 0 < dst - src)
    (h2 : n ≤ dst - src) : memcpyN b dst src n = perFill b src dst n := by
  funext j
  unfold memcpyN perFill
  split
  · congr 1
    have hlt : j - dst < dst - src := by omega
    rw [Nat.mod_eq_of_lt hlt]
  · rfl

theorem perFill_merge (b : Buf) (src dst w1 w2 : Nat) (h : 0 < dst - src) :
    perFill (perFill b src dst w1) (src + w1) (dst + w1) w2 = perFill b src dst (w1 + w2) := by
  funext j
  unfold perFill
  have hoffeq : dst + w1 - (src + w1) = dst - src := by omega
  by_cases hA : dst + w1 ≤ j ∧ j < dst + w1 + w2
  · rw [if_pos hA]
    rw [if_pos (by omega : dst ≤ j ∧ j < dst + (w1 + w2))]
    rw [hoffeq]
    set off := dst - src with hoffdef
    set a := j - (dst + w1) with hadef
    have hr : a % off < off := Nat.mod_lt _ h
    have hkey : (w1 + a % off) % off = (j - dst) % off := by
      have h1 : j - dst = w1 + a := by omega
      rw [h1, Nat.add_mod w1 a off, Nat.add_mod w1 (a % off) off,
        Nat.mod_mod_of_dvd a (dvd_refl off)]
    by_cases hB : off ≤ w1 + a % off
    · rw [if_pos (by omega : dst ≤ src + w1 + a % off ∧ src + w1 + a % off < dst + w1)]
      congr 1
      have hsub : src + w1 + a % off - dst = w1 + a % off - off := by omega
      rw [hsub, ← hkey, Nat.mod_eq_sub_mod hB]
    · rw [if_neg (by omega : ¬(dst ≤ src + w1 + a % off ∧ src + w1 + a % off < dst + w1))]
      have hlt : w1 + a % off < off := by omega
      rw [← hkey, Nat.mod_eq_of_lt hlt, Nat.add_assoc]
  · rw [if_neg hA]
    by_cases hC : dst ≤ j ∧ j < dst + w1
    · rw [if_pos hC, if_pos (by omega : dst ≤ j ∧ j < dst + (w1 + w2))]
    · rw [if_neg hC, if_neg (by omega : ¬(dst ≤ j ∧ j < dst + (w1 + w2)))]

theorem perFill_zero (b : Buf) (src dst : Nat) : perFill b src dst 0 = b := by
  funext j
  unfold perFill
  rw [if_neg (by omega)]

theorem byteCopy_perFill (n : Nat) : ∀ (b : Buf) (src dst : Nat), src < dst →
    byteCopy b src dst n = perFill b src dst n := by
  induction n with
  | zero =>
    intro b src dst hlt
    rw [byteCopy, perFill_zero]
  | succ n ih =>
    intro b src dst hlt
    rw [byteCopy, ih _ _ _ (by omega)]
    have hone : (fun j => if j = dst then b src else b j) = perFill b src dst 1 := by
      funext j
      unfold perFill
      by_cases hj : j = dst
      · subst hj
        rw [if_pos rfl, if_pos (by omega)]
        simp
      · rw [if_neg hj, if_neg (by omega)]
    rw [hone, perFill_merge b src dst 1 n (by omega), Nat.add_comm 1 n]

theorem double_memcpy_perFill (b : Buf) (src dst : Nat) (h : 8 ≤ dst - src) :
    memcpyN (memcpyN b dst src 8) (dst + 8) (src + 8) 8 = perFill b src dst 16 := by
  rw [memcpyN_perFill b src dst 8 (by omega) (by omega)]
  rw [memcpyN_perFill _ (src + 8) (dst + 8) 8 (by omega) (by omega)]
  exact perFill_merge b src dst 8 8 (by omega)

theorem fastMatchCopy_perFill (b : Buf) (src dst : Nat) (h : 8 ≤ dst - src) :
    fastMatchCopy b src dst = perFill b src dst 20 := by
  unfold fastMatchCopy
  rw [double_memcpy_perFill b src dst h]
  rw [memcpyN_perFill _ (src + 16) (dst + 16) 4 (by omega) (by omega)]
  exact perFill_merge b src dst 16 4 (by omega)

theorem chunkSpan_ge : ∀ (k dst endDst : Nat), endDst - dst ≤ k →
    endDst ≤ dst + chunkSpan dst endDst := by
  intro k
  induction k with
  | zero =>
    intro dst endDst hk
    conv_rhs => rw [chunkSpan]
    rw [dif_neg (by omega)]
    omega
  | succ k ih =>
    intro dst endDst hk
    conv_rhs => rw [chunkSpan]
    by_cases h16 : dst + 16 < endDst
    · rw [dif_pos h16]
      have := ih (dst + 16) endDst (by omega)
      omega
    · rw [dif_neg h16]
      omega

theorem chunkCopy_perFill : ∀ (k : Nat) (b : Buf) (src dst endDst : Nat),
    endDst - dst ≤ k → 8 ≤ dst - src →
    chunkCopy b src dst endDst = perFill b src dst (chunkSpan dst endDst) := by
  intro k
  induction k with
  | zero =>
    intro b src dst endDst hk hoff
    rw [chunkCopy, chunkSpan]
    rw [dif_neg (by omega : ¬ dst + 16 < endDst), dif_neg (by omega : ¬ dst + 16 < endDst)]
    exact double_memcpy_perFill b src dst hoff
  | succ k ih =>
    intro b src dst endDst hk hoff
    rw [chunkCopy, chunkSpan]
    by_cases h16 : dst + 16 < endDst
    · rw [dif_pos h16, dif_pos h16]
      rw [ih _ (src + 16) (dst + 16) endDst (by omega) (by omega)]
      rw [double_memcpy_perFill b src dst hoff]
      exact perFill_merge b src dst 16 (chunkSpan (dst + 16) endDst) (by omega)
    · rw [dif_neg h16, dif_neg h16]
      exact double_memcpy_perFill b src dst hoff

theorem perFill_agree_mixed (b1 b2 : Buf) (src dst w w1 w2 : Nat) (hoff : 0 < dst - src)
    (hw1 : w ≤ w1) (hw2 : w ≤ w2) (hag : agreeBelow dst b1 b2) :
    agreeBelow (dst + w) (perFill b1 src dst w1) (perFill b2 src dst w2) := by
  intro j hj
  unfold perFill
  by_cases hr : dst ≤ j
  · rw [if_pos (by omega : dst ≤ j ∧ j < dst + w1),
      if_pos (by omega : dst ≤ j ∧ j < dst + w2)]
    have : (j - dst) % (dst - src) < dst - src := Nat.mod_lt _ hoff
    exact hag _ (by omega)
  · rw [if_neg (by omega : ¬(dst ≤ j ∧ j < dst + w1)),
      if_neg (by omega : ¬(dst ≤ j ∧ j < dst + w2))]
    exact hag _ (by omega)

theorem perFill_below (b : Buf) (src dst w : Nat) (j : Nat) (hj : j < dst) :
    perFill b src dst w j = b j := by
  unfold perFill
  rw [if_neg (by omega)]

theorem writeLits_below (b : Buf) (dst : Nat) (inp : List Nat) (src n : Nat)
    (j : Nat) (hj : j < dst) : writeLits b dst inp src n j = b j := by
  unfold writeLits
  rw [if_neg (by omega)]

theorem writeLits_agree_mixed (b1 b2 : Buf) (dst : Nat) (inp : List Nat) (src n1 n2 n : Nat)
    (hn1 : n ≤ n1) (hn2 : n ≤ n2) (hag : agreeBelow dst b1 b2) :
    agreeBelow (dst + n) (writeLits b1 dst inp src n1) (writeLits b2 dst inp src n2) := by
  intro j hj
  unfold writeLits
  by_cases hr : dst ≤ j
  · rw [if_pos (by omega : dst ≤ j ∧ j < dst + n1), if_pos (by omega : dst ≤ j ∧ j < dst + n2)]
  · rw [if_neg (by omega : ¬(dst ≤ j ∧ j < dst + n1)),
      if_neg (by omega : ¬(dst ≤ j ∧ j < dst + n2))]
    exact hag _ (by omega)

theorem litSlow_scalars (inp : List Nat) (i nl pos : Nat) (b : Buf) (outEnd : Nat)
    (i2 pos2 : Nat) (b2 : Buf) (h : nl < LITERALS_RUN_LEN)
    (hl : lz4ultra_expand_literals_slow inp i nl pos b outEnd = some (i2, pos2, b2)) :
    i2 = i + nl ∧ pos2 = pos + nl := by
  have hne : ¬ (nl = LITERALS_RUN_LEN) := by omega
  unfold lz4ultra_expand_literals_slow runChain at hl
  simp only [if_neg hne] at hl
  by_cases h0 : nl = 0
  · subst h0
    simp only [ne_eq, not_true_eq_false, if_neg, not_false_eq_true, if_pos] at hl
    · simp only [Option.some.injEq, Prod.mk.injEq] at hl
      omega
  · simp only [ne_eq, h0, not_false_eq_true, if_pos] at hl
    split at hl
    · simp only [Option.some.injEq, Prod.mk.injEq] at hl
      omega
    · exact absurd hl (by simp)

theorem litSlow_uniform (inp : List Nat) (i nl pos : Nat) (b : Buf) (outEnd : Nat)
    (i2 pos2 : Nat) (b2' : Buf)
    (hm : lz4ultra_expand_literals_slow inp i nl pos b outEnd = some (i2, pos2, b2')) :
    pos ≤ pos2 ∧
    ∀ c : Buf, ∃ c' : Buf, lz4ultra_expand_literals_slow inp i nl pos c outEnd
      = some (i2, pos2, c') ∧
      (agreeBelow pos c b → agreeBelow pos2 c' b2') := by
  rcases hs : runChain inp i nl LITERALS_RUN_LEN with ⟨s1, s2⟩
  unfold lz4ultra_expand_literals_slow at hm
  rw [hs] at hm
  dsimp only at hm
  have key : ∀ c : Buf, ∃ c' : Buf, lz4ultra_expand_literals_slow inp i nl pos c outEnd
      = some (i2, pos2, c') ∧ pos ≤ pos2 ∧
      (agreeBelow pos c b → agreeBelow pos2 c' b2') := by
    intro c
    unfold lz4ultra_expand_literals_slow
    rw [hs]
    dsimp only
    by_cases hz : s2 ≠ 0
    · rw [if_pos hz] at hm ⊢
      split at hm
      · rename_i hbounds
        rw [if_pos hbounds]
        simp only [Option.some.injEq, Prod.mk.injEq] at hm
        obtain ⟨h1, h2, h3⟩ := hm
        refine ⟨writeLits c pos inp s1 s2, by rw [h1, h2], by omega, ?_⟩
        intro hag j hj
        rw [← h2] at hj
        rw [← h3]
        unfold writeLits
        by_cases hr : pos ≤ j
        · rw [if_pos (by omega), if_pos (by omega)]
        · rw [if_neg (by omega), if_neg (by omega)]
          exact hag j (by omega)
      · exact absurd hm (by simp)
    · rw [if_neg hz] at hm ⊢
      simp only [Option.some.injEq, Prod.mk.injEq] at hm
      obtain ⟨h1, h2, h3⟩ := hm
      refine ⟨c, by rw [h1, h2], by omega, ?_⟩
      intro hag j hj
      rw [← h3]
      exact hag j (by omega)
  obtain ⟨c', hc', hle, _⟩ := key b
  exact ⟨hle, fun c => (key c).imp fun c' h => ⟨h.1, h.2.2⟩⟩

theorem runChain_small (inp : List Nat) (i n limit : Nat) (h : n ≠ limit) :
    runChain inp i n limit = (i, n) := by
  unfold runChain
  rw [if_neg h]

/-- Uniform description of a successful `lz4ultra_expand_match_slow`:
the scalar results do not depend on the buffer, and the copied bytes are
the periodic extension `perFill` of the bytes below `pos` with period
`pos - src`, of one uniform width for every input buffer. -/
theorem matchSlow_uniform (inp : List Nat) (i src mn pos : Nat) (b : Buf) (outEnd : Nat)
    (ofe : Int) (i3 pos3 : Nat) (b'' : Buf) (hsrc : src < pos)
    (hm : lz4ultra_expand_match_slow inp i src mn pos b outEnd ofe = some (i3, pos3, b'')) :
    ∃ w, pos3 - pos ≤ w ∧ pos ≤ pos3 ∧ b'' = perFill b src pos w ∧
      ∀ c : Buf, lz4ultra_expand_match_slow inp i src mn pos c outEnd ofe
        = some (i3, pos3, perFill c src pos w) := by
  rcases hs : runChain inp i mn MATCH_RUN_LEN with ⟨s1, s2⟩
  unfold lz4ultra_expand_match_slow at hm
  rw [hs] at hm
  dsimp only at hm
  by_cases hroom : pos + (s2 + MIN_MATCH_SIZE) ≤ outEnd
  · rw [if_pos hroom] at hm
    by_cases hbr : 8 ≤ pos - src ∧ (pos : Int) + ((s2 + MIN_MATCH_SIZE : Nat) : Int) ≤ ofe
    · rw [if_pos hbr] at hm
      simp only [Option.some.injEq, Prod.mk.injEq] at hm
      obtain ⟨h1, h2, h3⟩ := hm
      refine ⟨chunkSpan pos (pos + (s2 + MIN_MATCH_SIZE)), ?_, by omega, ?_, ?_⟩
      · have := chunkSpan_ge (s2 + MIN_MATCH_SIZE) pos (pos + (s2 + MIN_MATCH_SIZE)) (by omega)
        omega
      · rw [← h3, chunkCopy_perFill (s2 + MIN_MATCH_SIZE) b src pos _ (by omega) hbr.1]
      · intro c
        unfold lz4ultra_expand_match_slow
        rw [hs]
        dsimp only
        rw [if_pos hroom, if_pos hbr, h1, h2,
          chunkCopy_perFill (s2 + MIN_MATCH_SIZE) c src pos _ (by omega) hbr.1]
    · rw [if_neg hbr] at hm
      simp only [Option.some.injEq, Prod.mk.injEq] at hm
      obtain ⟨h1, h2, h3⟩ := hm
      refine ⟨s2 + MIN_MATCH_SIZE, by omega, by omega, ?_, ?_⟩
      · rw [← h3, byteCopy_perFill (s2 + MIN_MATCH_SIZE) b src pos hsrc]
      · intro c
        unfold lz4ultra_expand_match_slow
        rw [hs]
        dsimp only
        rw [if_pos hroom, if_neg hbr, h1, h2, byteCopy_perFill (s2 + MIN_MATCH_SIZE) c src pos hsrc]
  · rw [if_neg hroom] at hm
    exact absurd hm (by simp)

theorem matchSlow_scalars (inp : List Nat) (i src mn pos : Nat) (b : Buf) (outEnd : Nat)
    (ofe : Int) (i3 pos3 : Nat) (b'' : Buf) (h : mn < MATCH_RUN_LEN)
    (hm : lz4ultra_expand_match_slow inp i src mn pos b outEnd ofe = some (i3, pos3, b'')) :
    i3 = i ∧ pos3 = pos + (mn + MIN_MATCH_SIZE) := by
  unfold lz4ultra_expand_match_slow at hm
  rw [runChain_small inp i mn MATCH_RUN_LEN (by omega)] at hm
  dsimp only at hm
  split at hm
  · split at hm
    · simp only [Option.some.injEq, Prod.mk.injEq] at hm
      exact ⟨hm.1.symm, hm.2.1.symm⟩
    · simp only [Option.some.injEq, Prod.mk.injEq] at hm
      exact ⟨hm.1.symm, hm.2.1.symm⟩
  · exact absurd hm (by simp)

/- ----------------------------------------------------------------- -/
/- Claim C2.                                                         -/
/- ----------------------------------------------------------------- -/

/-- C2.  The spec says every error makes the process exit with code 100,
in particular a failed compression under the (default) `z` command.  The
code computes the failing result (100) in the `z` branch of `main` but
never returns it: control falls off the end of `main`, so the process
exits with 0.  The `d` branch and the usage path do return their codes. -/
theorem c2_main_exit_code :
    mainExit 'z' true 100 100 0 = 0 ∧
    mainExit 'd' false 0 0 100 = 100 ∧ (0 : Nat) ≠ 100 := by decide

/- ----------------------------------------------------------------- -/
/- Claim C5.                                                         -/
/- ----------------------------------------------------------------- -/

/-- C5.  If, after a token's literal run, the decoded match offset
exceeds the current absolute output position — that is, `pSrc` points
before the start of the output buffer (index 0, the base including any
dictionary prefix) — then the block decoder returns -1 without copying
the match, in the slow loop and in the fast loop alike. -/
theorem c5_offset_before_base_errors
    (inp : List Nat) (outEnd : Nat) (ofe : Int) (fuel i pos : Nat) (b : Buf)
    (i2 pos2 : Nat) (b2 : Buf)
    (hi : i < inp.length)
    (hlit : lz4ultra_expand_literals_slow inp (i + 1) (inp.getD i 0 / 16) pos b outEnd
      = some (i2, pos2, b2))
    (hrem : i2 + 1 < inp.length)
    (hoff : pos2 < inp.getD i2 0 + 256 * inp.getD (i2 + 1) 0) :
    slowLoop inp outEnd ofe (fuel + 1) i pos b = none ∧
    runFrom inp outEnd ofe (fuel + 1) i pos b = none := by
  have hofle : ¬ (inp.getD i2 0 + 256 * inp.getD (i2 + 1) 0 ≤ pos2) := by omega
  constructor
  · simp only [slowLoop, if_pos hi, hlit, if_pos hrem, if_neg hofle]
  · by_cases hg : (i : Int) < (inp.length : Int) - 16 ∧ (pos : Int) < ofe
    · simp only [runFrom, if_pos hg]
      by_cases hnl : inp.getD i 0 / 16 < LITERALS_RUN_LEN
      · obtain ⟨he1, he2⟩ := litSlow_scalars inp (i + 1) (inp.getD i 0 / 16) pos b outEnd
          i2 pos2 b2 hnl hlit
        simp only [if_pos hnl]
        have hi2 : i + 1 + inp.getD i 0 / 16 = i2 := he1.symm
        have hp2 : pos + inp.getD i 0 / 16 = pos2 := he2.symm
        simp only [hi2, hp2, if_pos hrem, if_neg hofle]
      · simp only [if_neg hnl, hlit, if_pos hrem, if_neg hofle]
    · simp only [runFrom, if_neg hg, slowLoop, if_pos hi, hlit, if_pos hrem, if_neg hofle]

/-- Witness for C5 at a concrete block: token `0x00`, then offset bytes
`05 00` with output position 0, so the match source would be 5 bytes
before the buffer base. -/
theorem c5_offset_before_base_witness :
    slowLoop [0, 5, 0] 10 (-10) 3 0 0 bufZero = none ∧
    runFrom [0, 5, 0] 10 (-10) 3 0 0 bufZero = none :=
  c5_offset_before_base_errors [0, 5, 0] 10 (-10) 2 0 0 bufZero 1 0 bufZero
    (by decide) rfl (by decide) (by decide)

/- ----------------------------------------------------------------- -/
/- Claim C6.                                                         -/
/- ----------------------------------------------------------------- -/

/-- C6 counterexample.  The block `0F 01 00` starts a variable-length
match run (match nibble 15) whose 0xFF chain immediately hits the end of
the block, with no terminating non-0xFF byte; the claim says the decoder
must return -1, but it succeeds (here with 19 decoded bytes). -/
theorem c6_truncated_match_chain_succeeds :
    (lz4ultra_decompressor_expand_block_lz4 [0x0F, 0x01, 0x00] 1 30 bufZero).isSome = true ∧
    expandBlockBytes [0x0F, 0x01, 0x00] 1 30 bufZero
      = some (19, List.replicate 19 0) := by decide

/-- C6 amended.  A 0xFF chain that reaches the end of the block is an
error (-1) for a literal run, as claimed; but for a match run the
decoder does not report an error: it keeps the partial length and, when
the output bound allows the resulting match, succeeds. -/
theorem c6_truncated_chain_amended :
    (∀ (inp : List Nat) (i pos : Nat) (b : Buf) (outEnd : Nat),
      (∀ x ∈ inp.drop i, x = 255) →
      lz4ultra_expand_literals_slow inp i LITERALS_RUN_LEN pos b outEnd = none) ∧
    (∀ (inp : List Nat) (i src pos : Nat) (b : Buf) (outEnd : Nat) (ofe : Int),
      (∀ x ∈ inp.drop i, x = 255) →
      pos + (MATCH_RUN_LEN + 255 * (inp.length - i) + MIN_MATCH_SIZE) ≤ outEnd →
      (lz4ultra_expand_match_slow inp i src MATCH_RUN_LEN pos b outEnd ofe).isSome = true) := by
  constructor
  · intro inp i pos b outEnd h
    have hc := readChainL_all255 (inp.drop i) LITERALS_RUN_LEN h
    simp only [lz4ultra_expand_literals_slow, runChain, eq_self_iff_true, if_true, hc,
      List.length_drop]
    simp only [LITERALS_RUN_LEN]
    split
    · split
      · exfalso
        omega
      · rfl
    · exfalso
      omega
  · intro inp i src pos b outEnd ofe h hroom
    have hc := readChainL_all255 (inp.drop i) MATCH_RUN_LEN h
    simp only [MATCH_RUN_LEN, MIN_MATCH_SIZE] at hroom
    simp only [lz4ultra_expand_match_slow, runChain, eq_self_iff_true, if_true, hc,
      List.length_drop]
    simp only [MATCH_RUN_LEN, MIN_MATCH_SIZE]
    rw [if_pos (by omega)]
    split <;> simp

/-- Witness for the amended C6: a concrete truncated literal chain
errors, and a concrete truncated match chain succeeds. -/
theorem c6_truncated_chain_witness :
    lz4ultra_expand_literals_slow [255, 255] 0 LITERALS_RUN_LEN 0 bufZero 2000 = none ∧
    (lz4ultra_expand_match_slow [255] 0 0 MATCH_RUN_LEN 1 bufZero 2000 0).isSome = true :=
  ⟨c6_truncated_chain_amended.1 [255, 255] 0 0 bufZero 2000 (by decide),
   c6_truncated_chain_amended.2 [255] 0 0 1 bufZero 2000 0 (by decide) (by decide)⟩

/- ----------------------------------------------------------------- -/
/- Claim C7.                                                         -/
/- ----------------------------------------------------------------- -/

/-- C7.  Token run lengths: (1) a literals nibble below 15 consumes
exactly that many literal bytes (input index and output position both
advance by the nibble, the bytes copied verbatim); (2) a nibble equal to
15 is extended by the 0xFF chain: each 0xFF adds 255 and the first
non-0xFF byte adds its value and terminates the run; (3) a match nibble
below 15 yields a match of nibble + MIN_MATCH_SIZE bytes; (4) an
extended match nibble yields 15 + 255·k + terminator + MIN_MATCH_SIZE. -/
theorem c7_token_run_lengths :
    (∀ (inp : List Nat) (i nl pos : Nat) (b : Buf) (outEnd : Nat),
      nl < LITERALS_RUN_LEN → i + nl ≤ inp.length → pos + nl ≤ outEnd →
      lz4ultra_expand_literals_slow inp i nl pos b outEnd
        = some (i + nl, pos + nl, writeLits b pos inp i nl)) ∧
    (∀ (c t : Nat) (rest : List Nat), t ≠ 255 →
      readChainL (List.replicate c 255 ++ t :: rest) LITERALS_RUN_LEN
        = (c + 1, LITERALS_RUN_LEN + 255 * c + t)) ∧
    (∀ (inp : List Nat) (i src m pos : Nat) (b : Buf) (outEnd : Nat) (ofe : Int),
      m < MATCH_RUN_LEN → pos + (m + MIN_MATCH_SIZE) ≤ outEnd →
      (lz4ultra_expand_match_slow inp i src m pos b outEnd ofe).map
        (fun r => (r.1, r.2.1)) = some (i, pos + (m + MIN_MATCH_SIZE))) ∧
    (∀ (inp : List Nat) (i src pos c t : Nat) (rest : List Nat) (b : Buf)
        (outEnd : Nat) (ofe : Int),
      inp.drop i = List.replicate c 255 ++ t :: rest → t ≠ 255 →
      pos + (MATCH_RUN_LEN + 255 * c + t + MIN_MATCH_SIZE) ≤ outEnd →
      (lz4ultra_expand_match_slow inp i src MATCH_RUN_LEN pos b outEnd ofe).map
        (fun r => (r.1, r.2.1))
        = some (i + (c + 1), pos + (MATCH_RUN_LEN + 255 * c + t + MIN_MATCH_SIZE))) := by
  refine ⟨?_, ?_, ?_, ?_⟩
  · intro inp i nl pos b outEnd h hb1 hb2
    have hne : ¬ (nl = LITERALS_RUN_LEN) := by omega
    simp only [lz4ultra_expand_literals_slow, runChain, if_neg hne]
    by_cases h0 : nl = 0
    · subst h0
      rw [if_neg (by simp)]
      simp only [Nat.add_zero, Option.some.injEq, Prod.mk.injEq, true_and]
      funext j
      unfold writeLits
      have : ¬ (pos ≤ j ∧ j < pos + 0) := by omega
      simp only [if_neg this]
    · rw [if_pos (by simpa using h0), if_pos (And.intro hb1 hb2)]
  · intro c t rest ht
    exact readChainL_chain c t rest LITERALS_RUN_LEN ht
  · intro inp i src m pos b outEnd ofe h hroom
    have hne : ¬ (m = MATCH_RUN_LEN) := by omega
    simp only [lz4ultra_expand_match_slow, runChain, if_neg hne, if_pos hroom]
    split <;> simp
  · intro inp i src pos c t rest b outEnd ofe hsh ht hroom
    have hc := readChainL_chain c t rest MATCH_RUN_LEN ht
    simp only [lz4ultra_expand_match_slow, runChain, eq_self_iff_true, if_true, hsh, hc]
    rw [if_pos (by omega)]
    split <;> simp

/-- Witness for C7 at a concrete chain: two 0xFF bytes then terminator 7
decode to run length 15 + 510 + 7, consuming three bytes. -/
theorem c7_token_run_lengths_witness :
    readChainL (List.replicate 2 255 ++ 7 :: []) LITERALS_RUN_LEN
      = (3, LITERALS_RUN_LEN + 255 * 2 + 7) :=
  c7_token_run_lengths.2.1 2 7 [] (by decide)

/- ----------------------------------------------------------------- -/
/- Claim C10.                                                        -/
/- ----------------------------------------------------------------- -/

/-- C10.  If fewer than 4 bytes remain when the framed decompression
loop reads the next block header, the short read is treated exactly like
a zero block size: the loop stops and the operation succeeds, just as it
does on the explicit 4-byte zero footer; in particular a whole stream
that is a valid frame header followed by fewer than 4 bytes decompresses
successfully (to the empty output). -/
theorem c10_truncated_header_success :
    (∀ (fuel : Nat) (rem prevBlk out : List Nat), rem.length < 4 →
      lz4ultra_decompress_loop (fuel + 1) rem prevBlk out = some out ∧
      lz4ultra_decompress_loop (fuel + 1) [0, 0, 0, 0] prevBlk out = some out) ∧
    (∀ rem : List Nat, rem.length < 4 →
      lz4ultra_decompress (frameHeader ++ rem) = some []) := by
  have base : ∀ (fuel : Nat) (rem prevBlk out : List Nat), rem.length < 4 →
      lz4ultra_decompress_loop (fuel + 1) rem prevBlk out = some out := by
    intro fuel rem prevBlk out h
    have hlen : (rem.take 4).length ≠ 4 := by
      simp only [List.length_take]
      omega
    simp only [lz4ultra_decompress_loop, if_neg hlen, ne_eq, not_true_eq_false, if_neg,
      not_false_eq_true, if_pos]
  refine ⟨fun fuel rem prevBlk out h => ⟨base fuel rem prevBlk out h, rfl⟩, ?_⟩
  intro rem h
  have h7 : frameHeader.length = 7 := rfl
  have hsz : 7 ≤ (frameHeader ++ rem).length := by
    simp only [List.length_append, h7]
    omega
  have htk : (frameHeader ++ rem).take 7 = frameHeader := by
    rw [← h7, List.take_left]
  have hdr : (frameHeader ++ rem).drop 7 = rem := by
    rw [← h7, List.drop_left]
  unfold lz4ultra_decompress
  simp only [if_pos (And.intro hsz htk), hdr]
  have hfuel : (frameHeader ++ rem).length + 1 = (frameHeader ++ rem).length + 1 := rfl
  exact base ((frameHeader ++ rem).length) rem [] [] h

/-- Witness for C10: a framed stream truncated right after the header
(no footer at all) decompresses successfully to the empty output. -/
theorem c10_truncated_header_witness :
    lz4ultra_decompress (frameHeader ++ [0, 0]) = some [] :=
  c10_truncated_header_success.2 [0, 0] (by decide)

/- ----------------------------------------------------------------- -/
/- Claim C8.                                                         -/
/- ----------------------------------------------------------------- -/

/-- C8.  After a token's literal run ending at input index `i2`, the
decoder reads a two-byte little-endian match offset if and only if at
least two compressed bytes remain (`i2 + 1 < inp.length`): in that case
the match offset is `inp[i2] + 256·inp[i2+1]` and processing continues
at `i2 + 2`; otherwise the token contributes its literals only, no
further input is consumed for it, and when the literal run ends exactly
at the block end the decode finishes there. -/
theorem c8_offset_iff_two_bytes
    (inp : List Nat) (outEnd : Nat) (ofe : Int) (fuel i pos : Nat) (b : Buf)
    (i2 pos2 : Nat) (b2 : Buf)
    (hi : i < inp.length)
    (hlit : lz4ultra_expand_literals_slow inp (i + 1) (inp.getD i 0 / 16) pos b outEnd
      = some (i2, pos2, b2)) :
    (i2 + 1 < inp.length →
      slowLoop inp outEnd ofe (fuel + 1) i pos b =
        (if inp.getD i2 0 + 256 * inp.getD (i2 + 1) 0 ≤ pos2 then
          match lz4ultra_expand_match_slow inp (i2 + 2)
              (pos2 - (inp.getD i2 0 + 256 * inp.getD (i2 + 1) 0))
              (inp.getD i 0 % 16) pos2 b2 outEnd ofe with
          | none => none
          | some (i3, pos3, b3) => slowLoop inp outEnd ofe fuel i3 pos3 b3
        else none)) ∧
    (¬ i2 + 1 < inp.length →
      slowLoop inp outEnd ofe (fuel + 1) i pos b
        = slowLoop inp outEnd ofe fuel i2 pos2 b2) ∧
    (i2 = inp.length →
      slowLoop inp outEnd ofe (fuel + 2) i pos b = some (pos2, b2)) := by
  refine ⟨?_, ?_, ?_⟩
  · intro hrem
    simp only [slowLoop, if_pos hi, hlit, if_pos hrem]
  · intro hrem
    simp only [slowLoop, if_pos hi, hlit, if_neg hrem]
  · intro hend
    have hrem : ¬ i2 + 1 < inp.length := by omega
    simp only [slowLoop, if_pos hi, hlit, if_neg hrem]
    have : ¬ i2 < inp.length := by omega
    simp only [slowLoop, if_neg this]

/-- Witness for C8 at a concrete block `10 AA`: the single literal ends
the block, so no offset is read and the decode finishes. -/
theorem c8_offset_iff_two_bytes_witness :
    slowLoop [0x10, 0xAA] 10 0 2 0 0 bufZero
      = some (1, writeLits bufZero 0 [0x10, 0xAA] 1 1) :=
  (c8_offset_iff_two_bytes [0x10, 0xAA] 10 0 0 0 0 bufZero 2 1
    (writeLits bufZero 0 [0x10, 0xAA] 1 1) (by decide) rfl).2.2 rfl

/- ----------------------------------------------------------------- -/
/- Claims C3 and C4: helper lemmas on the chunking loop.              -/
/- ----------------------------------------------------------------- -/

theorem chunkList_nil : chunkList [] = [] := by
  unfold chunkList
  rfl

theorem chunkList_ne (l : List Nat) (h : l ≠ []) :
    chunkList l = l.take 65536 :: chunkList (l.drop 65536) := by
  conv_lhs => rw [chunkList]
  rw [dif_neg h]

theorem compressChunks_one (shrink : List Nat → List Nat → Option (List Nat))
    (c1 : List Nat) (hc1 : c1.length ≠ 0) (comp : List Nat)
    (hcomp : shrink [] c1 = some comp) :
    compressChunks shrink true [c1] [] = Except.ok comp := by
  rw [compressChunks]
  rw [if_pos hc1]
  rw [if_neg (by simp)]
  rw [hcomp]
  rw [compressChunks]
  simp [Except.map]

theorem compressChunks_two_raw (shrink : List Nat → List Nat → Option (List Nat))
    (c1 c2 : List Nat) (cs : List (List Nat))
    (hc1 : c1.length ≠ 0) (hc2 : c2.length ≠ 0)
    (hs : ∀ p c, shrink p c ≠ none) :
    compressChunks shrink true (c1 :: c2 :: cs) [] = Except.error CompErr.tooLarge := by
  obtain ⟨comp, hcomp⟩ := Option.ne_none_iff_exists'.mp (hs [] c1)
  rw [compressChunks]
  rw [if_pos hc1]
  rw [if_neg (by simp)]
  rw [hcomp]
  rw [compressChunks]
  rw [if_pos hc2]
  rw [if_pos (And.intro hc1 rfl)]
  rfl

theorem chunkList_small (l : List Nat) (h1 : l ≠ []) (h2 : l.length ≤ 65536) :
    chunkList l = [l] := by
  rw [chunkList_ne l h1, List.take_of_length_le h2, List.drop_eq_nil_of_le h2, chunkList_nil]

/- ----------------------------------------------------------------- -/
/- Claim C3.                                                         -/
/- ----------------------------------------------------------------- -/

/-- C3 counterexample.  Compressing the empty input in framed mode
emits `04 22 4D 18 40 40 C0 00 00 00 00`: the block-max byte of the
header written by `lz4ultra_compress` is `4 << 4` = `0x40`, not the
`0x70` the claim states. -/
theorem c3_empty_framed_bytes_counterexample :
    lz4ultra_compress (fun _ _ => none) [] false
      = Except.ok [0x04, 0x22, 0x4D, 0x18, 0x40, 0x40, 0xC0, 0, 0, 0, 0] ∧
    ([0x04, 0x22, 0x4D, 0x18, 0x40, 0x40, 0xC0, 0, 0, 0, 0] : List Nat)
      ≠ [0x04, 0x22, 0x4D, 0x18, 0x40, 0x70, 0xC0, 0, 0, 0, 0] := by
  constructor
  · unfold lz4ultra_compress
    rw [chunkList_nil]
    rfl
  · decide

/-- C3 amended.  For every compression oracle, compressing the empty
input in framed mode produces exactly the 11 bytes
`04 22 4D 18 40 40 C0 00 00 00 00` (7-byte header with block-max byte
`0x40`, then the 4-byte empty-frame footer), and this output
decompresses back to the empty input. -/
theorem c3_empty_framed_output_roundtrip :
    ∀ shrink : List Nat → List Nat → Option (List Nat),
      lz4ultra_compress shrink [] false
        = Except.ok [0x04, 0x22, 0x4D, 0x18, 0x40, 0x40, 0xC0, 0, 0, 0, 0] ∧
      lz4ultra_decompress [0x04, 0x22, 0x4D, 0x18, 0x40, 0x40, 0xC0, 0, 0, 0, 0]
        = some [] := by
  intro shrink
  constructor
  · unfold lz4ultra_compress
    rw [chunkList_nil]
    rfl
  · decide

/- ----------------------------------------------------------------- -/
/- Claim C4.                                                         -/
/- ----------------------------------------------------------------- -/

/-- C4 counterexample.  A compressible input of exactly 65536 bytes in
raw mode compresses successfully — the claim says any input of 65536 or
more bytes must fail with the raw-too-large error.  (The loop only
raises that error when a second non-empty 65536-byte chunk is read.) -/
theorem c4_raw_65536_succeeds :
    lz4ultra_compress (fun _ _ => some [7]) (List.replicate 65536 0) true
      = Except.ok [7, 0, 0] ∧
    (Except.ok [7, 0, 0] : Except CompErr (List Nat)) ≠ Except.error CompErr.tooLarge := by
  constructor
  · have h1 : (List.replicate 65536 (0 : Nat)) ≠ [] := by
      intro he
      have := congrArg List.length he
      rw [List.length_replicate] at this
      simp at this
    have h2 : (List.replicate 65536 (0 : Nat)).length ≤ 65536 := by
      rw [List.length_replicate]
    unfold lz4ultra_compress
    rw [chunkList_small _ h1 h2]
    rw [compressChunks_one _ _ (by rw [List.length_replicate]; omega) [7] rfl]
    rfl
  · simp

/-- C4 amended.  For every always-successful compression oracle, raw
mode accepts an input exactly when its size is at most 65536 bytes
(not 65535): a compressible input of up to 65536 bytes succeeds, and
any longer input fails with the raw-too-large error. -/
theorem c4_raw_size_gate :
    ∀ (shrink : List Nat → List Nat → Option (List Nat)) (input : List Nat),
      (∀ p c, shrink p c ≠ none) →
      (compressOk (lz4ultra_compress shrink input true) = true ↔ input.length ≤ 65536) ∧
      (65536 < input.length →
        lz4ultra_compress shrink input true = Except.error CompErr.tooLarge) := by
  intro shrink input hs
  by_cases hbig : 65536 < input.length
  · have hne : input ≠ [] := by
      intro he
      subst he
      simp at hbig
    have hd_ne : input.drop 65536 ≠ [] := by
      intro he
      have := congrArg List.length he
      simp only [List.length_drop, List.length_nil] at this
      omega
    have hc1 : (input.take 65536).length ≠ 0 := by
      rw [ne_eq, List.length_take]
      omega
    have hc2 : ((input.drop 65536).take 65536).length ≠ 0 := by
      rw [ne_eq, List.length_take, List.length_drop]
      omega
    have herr : lz4ultra_compress shrink input true = Except.error CompErr.tooLarge := by
      unfold lz4ultra_compress
      rw [chunkList_ne input hne, chunkList_ne _ hd_ne]
      rw [compressChunks_two_raw shrink _ _ _ hc1 hc2 hs]
      rfl
    refine ⟨?_, fun _ => herr⟩
    rw [herr]
    simp only [compressOk]
    constructor
    · intro h
      exact absurd h (by simp)
    · intro h
      omega
  · have hle : input.length ≤ 65536 := by omega
    refine ⟨?_, fun h => absurd h hbig⟩
    by_cases hnil : input = []
    · subst hnil
      rw [show lz4ultra_compress shrink [] true = Except.ok [0, 0] by
        unfold lz4ultra_compress
        rw [chunkList_nil]
        rfl]
      simp [compressOk]
    · obtain ⟨comp, hcomp⟩ := Option.ne_none_iff_exists'.mp (hs [] input)
      have hlen0 : input.length ≠ 0 := by
        rw [ne_eq, List.length_eq_zero]
        exact hnil
      unfold lz4ultra_compress
      rw [chunkList_small input hnil hle, compressChunks_one shrink input hlen0 comp hcomp]
      simp only [Except.map, compressOk]
      simp [hle]

/-- Witness for the amended C4 at a concrete 2-byte raw input with a
trivial oracle: the compression is accepted. -/
theorem c4_raw_size_gate_witness :
    compressOk (lz4ultra_compress (fun _ _ => some [9]) [1, 2] true) = true :=
  ((c4_raw_size_gate (fun _ _ => some [9]) [1, 2] (fun _ _ => by simp)).1).mpr (by decide)

/- ----------------------------------------------------------------- -/
/- Claim C9.                                                         -/
/- ----------------------------------------------------------------- -/

/-- C9 counterexample.  The decoded block `[5, 6]` differs from the
original `[5, 7]` first at byte offset 1, but the comparison loop of
`lz4ultra_compare` reports offset 0 — the offset at which the
mismatching block starts, not the offset of the first differing byte. -/
theorem c9_reported_offset_counterexample :
    lz4ultra_compare_loop [[5, 6]] [5, 7] 0 0 = some 0 ∧
    [5, 6].getD 0 0 = [5, 7].getD 0 0 ∧
    [5, 6].getD 1 0 ≠ [5, 7].getD 1 0 ∧
    (0 : Nat) ≠ 1 := by decide

/-- C9 amended.  In verify mode the tool re-decodes the compressed
output and compares each decoded byte against the original, and any
mismatch is a fatal error; but the diagnostic reports the offset at
which the first mismatching 65536-byte block begins (the number of bytes
verified before it), not the offset of the first differing byte. -/
theorem c9_reported_block_start :
    ∀ (good : List (List Nat)) (blk tail : List Nat) (rest : List (List Nat)) (kg sz : Nat),
      (∀ g ∈ good, g.length = 65536) →
      blk.length = (tail.take 65536).length →
      blk ≠ tail.take 65536 →
      lz4ultra_compare_loop (good ++ blk :: rest) (good.flatten ++ tail) kg sz
        = some (sz + good.flatten.length) := by
  intro good
  induction good with
  | nil =>
    intro blk tail rest kg sz _ hlen hne
    simp only [List.nil_append, List.flatten_nil, lz4ultra_compare_loop,
      if_pos hlen, if_neg hne, List.length_nil, Nat.add_zero]
  | cons g gs ih =>
    intro blk tail rest kg sz hg hlen hne
    have hglen : g.length = 65536 := hg g (by simp)
    have htk : ((g :: gs).flatten ++ tail).take 65536 = g := by
      rw [List.flatten_cons, List.append_assoc, ← hglen, List.take_left]
    have hdp : ((g :: gs).flatten ++ tail).drop 65536 = gs.flatten ++ tail := by
      rw [List.flatten_cons, List.append_assoc, ← hglen, List.drop_left]
    have step : lz4ultra_compare_loop ((g :: gs) ++ blk :: rest) ((g :: gs).flatten ++ tail) kg sz
        = lz4ultra_compare_loop (gs ++ blk :: rest) (((g :: gs).flatten ++ tail).drop 65536)
            sz (sz + g.length) := by
      rw [List.cons_append, lz4ultra_compare_loop]
      rw [htk]
      rw [if_pos rfl, if_pos rfl]
    rw [step, hdp, ih blk tail rest sz (sz + g.length) (fun x hx => hg x (by simp [hx])) hlen hne]
    rw [List.flatten_cons, List.length_append]
    congr 1
    omega

/-- Witness for the amended C9: with no preceding blocks the reported
offset is the running original size at the mismatching block's start. -/
theorem c9_reported_block_start_witness :
    lz4ultra_compare_loop [[5, 6]] [5, 7] 3 4 = some 4 := by
  simpa using c9_reported_block_start [] [5, 6] [5, 7] [] 3 4 (by simp) (by decide) (by decide)

/-- Congruence of the slow loop: if the strict (nonzero-offset) slow
loop succeeds on `b2`, then the plain slow loop succeeds on `b2` with
the same result, and on any buffer `b1` agreeing with `b2` below `pos`
it succeeds with the same scalar result and a buffer agreeing below the
final position. -/
theorem slowCong (inp : List Nat) (outEnd : Nat) (ofe : Int) :
    ∀ (fuel i pos : Nat) (b1 b2 : Buf) (r2 : Nat × Buf),
      agreeBelow pos b1 b2 →
      slowLoopStrict inp outEnd ofe fuel i pos b2 = some r2 →
      slowLoop inp outEnd ofe fuel i pos b2 = some r2 ∧
      ∃ b1', slowLoop inp outEnd ofe fuel i pos b1 = some (r2.1, b1') ∧
        agreeBelow r2.1 b1' r2.2 := by
  intro fuel
  induction fuel with
  | zero =>
    intro i pos b1 b2 r2 hag hs
    simp only [slowLoopStrict] at hs
    exact absurd hs (by simp)
  | succ fuel ih =>
    intro i pos b1 b2 r2 hag hs
    by_cases hi : i < inp.length
    · simp only [slowLoopStrict] at hs
      rw [if_pos hi] at hs
      cases hlit2 : lz4ultra_expand_literals_slow inp (i + 1) (inp.getD i 0 / 16) pos b2 outEnd with
      | none =>
        rw [hlit2] at hs
        simp at hs
      | some trip =>
        obtain ⟨i2, pos2, b2'⟩ := trip
        rw [hlit2] at hs
        dsimp only at hs
        obtain ⟨hple, hkey⟩ :=
          litSlow_uniform inp (i + 1) (inp.getD i 0 / 16) pos b2 outEnd i2 pos2 b2' hlit2
        obtain ⟨b1', hlit1, hagf⟩ := hkey b1
        have hag2 : agreeBelow pos2 b1' b2' := hagf hag
        by_cases hrem : i2 + 1 < inp.length
        · rw [if_pos hrem] at hs
          by_cases hoff : inp.getD i2 0 + 256 * inp.getD (i2 + 1) 0 ≤ pos2 ∧
              inp.getD i2 0 + 256 * inp.getD (i2 + 1) 0 ≠ 0
          · rw [if_pos hoff] at hs
            cases hm2 : lz4ultra_expand_match_slow inp (i2 + 2)
                (pos2 - (inp.getD i2 0 + 256 * inp.getD (i2 + 1) 0))
                (inp.getD i 0 % 16) pos2 b2' outEnd ofe with
            | none =>
              rw [hm2] at hs
              simp at hs
            | some trip2 =>
              obtain ⟨i3, pos3, b2''⟩ := trip2
              rw [hm2] at hs
              dsimp only at hs
              have h1 := hoff.1
              have h2 := hoff.2
              have hsrc : pos2 - (inp.getD i2 0 + 256 * inp.getD (i2 + 1) 0) < pos2 := by
                omega
              obtain ⟨w, hwge, hposle3, hb2eq, hall⟩ :=
                matchSlow_uniform inp (i2 + 2)
                  (pos2 - (inp.getD i2 0 + 256 * inp.getD (i2 + 1) 0))
                  (inp.getD i 0 % 16) pos2 b2' outEnd ofe i3 pos3 b2'' hsrc hm2
              have hm1 := hall b1'
              have hag3 : agreeBelow pos3
                  (perFill b1' (pos2 - (inp.getD i2 0 + 256 * inp.getD (i2 + 1) 0)) pos2 w)
                  b2'' := by
                rw [hb2eq]
                have hmix := perFill_agree_mixed b1' b2'
                  (pos2 - (inp.getD i2 0 + 256 * inp.getD (i2 + 1) 0)) pos2
                  (pos3 - pos2) w w (by omega) hwge hwge hag2
                have heq : pos2 + (pos3 - pos2) = pos3 := by omega
                rwa [heq] at hmix
              obtain ⟨hslow2, b1f, hslow1, hagf2⟩ := ih i3 pos3 _ b2'' r2 hag3 hs
              constructor
              · simp only [slowLoop]
                rw [if_pos hi, hlit2]
                dsimp only
                rw [if_pos hrem, if_pos hoff.1, hm2]
                exact hslow2
              · refine ⟨b1f, ?_, hagf2⟩
                simp only [slowLoop]
                rw [if_pos hi, hlit1]
                dsimp only
                rw [if_pos hrem, if_pos hoff.1, hm1]
                exact hslow1
          · rw [if_neg hoff] at hs
            simp at hs
        · rw [if_neg hrem] at hs
          obtain ⟨hslow2, b1f, hslow1, hagf2⟩ := ih i2 pos2 b1' b2' r2 hag2 hs
          constructor
          · simp only [slowLoop]
            rw [if_pos hi, hlit2]
            dsimp only
            rw [if_neg hrem]
            exact hslow2
          · refine ⟨b1f, ?_, hagf2⟩
            simp only [slowLoop]
            rw [if_pos hi, hlit1]
            dsimp only
            rw [if_neg hrem]
            exact hslow1
    · simp only [slowLoopStrict] at hs
      rw [if_neg hi] at hs
      simp only [Option.some.injEq] at hs
      subst hs
      refine ⟨?_, b1, ?_, hag⟩
      · simp only [slowLoop]
        rw [if_neg hi]
      · simp only [slowLoop]
        rw [if_neg hi]

/-- Congruence of the part of a decoder iteration that follows the
literal run (offset read, match copy, loop): relates the strict slow
loop's tail on `b2'` to the fast loop's tail on an agreeing `b1mid`,
assuming the relation already holds for the remaining fuel. -/
theorem runFromTailCong (inp : List Nat) (outEnd : Nat) (ofe : Int) (fuel : Nat)
    (IH : ∀ (i pos : Nat) (b1 b2 : Buf) (r2 : Nat × Buf),
      agreeBelow pos b1 b2 →
      slowLoopStrict inp outEnd ofe fuel i pos b2 = some r2 →
      ∃ b1', runFrom inp outEnd ofe fuel i pos b1 = some (r2.1, b1') ∧
        agreeBelow r2.1 b1' r2.2)
    (tok i2 pos2 : Nat) (b1mid b2' : Buf) (r2 : Nat × Buf)
    (hag2 : agreeBelow pos2 b1mid b2')
    (hs : (if i2 + 1 < inp.length then
        if inp.getD i2 0 + 256 * inp.getD (i2 + 1) 0 ≤ pos2 ∧
            inp.getD i2 0 + 256 * inp.getD (i2 + 1) 0 ≠ 0 then
          match lz4ultra_expand_match_slow inp (i2 + 2)
              (pos2 - (inp.getD i2 0 + 256 * inp.getD (i2 + 1) 0)) (tok % 16) pos2 b2'
              outEnd ofe with
          | none => none
          | some (i3, pos3, b3) => slowLoopStrict inp outEnd ofe fuel i3 pos3 b3
        else none
      else slowLoopStrict inp outEnd ofe fuel i2 pos2 b2') = some r2) :
    ∃ b1', (if i2 + 1 < inp.length then
        if inp.getD i2 0 + 256 * inp.getD (i2 + 1) 0 ≤ pos2 then
          if tok % 16 < MATCH_RUN_LEN ∧ 8 ≤ inp.getD i2 0 + 256 * inp.getD (i2 + 1) 0 ∧
              (pos2 : Int) < ofe then
            runFrom inp outEnd ofe fuel (i2 + 2) (pos2 + (MIN_MATCH_SIZE + tok % 16))
              (fastMatchCopy b1mid (pos2 - (inp.getD i2 0 + 256 * inp.getD (i2 + 1) 0)) pos2)
          else
            match lz4ultra_expand_match_slow inp (i2 + 2)
                (pos2 - (inp.getD i2 0 + 256 * inp.getD (i2 + 1) 0)) (tok % 16) pos2 b1mid
                outEnd ofe with
            | none => none
            | some (i3, pos3, b3) => runFrom inp outEnd ofe fuel i3 pos3 b3
        else none
      else runFrom inp outEnd ofe fuel i2 pos2 b1mid) = some (r2.1, b1') ∧
      agreeBelow r2.1 b1' r2.2 := by
  have hmin : MIN_MATCH_SIZE = 4 := rfl
  have hmrl : MATCH_RUN_LEN = 15 := rfl
  by_cases hrem : i2 + 1 < inp.length
  · rw [if_pos hrem] at hs ⊢
    by_cases hoff : inp.getD i2 0 + 256 * inp.getD (i2 + 1) 0 ≤ pos2 ∧
        inp.getD i2 0 + 256 * inp.getD (i2 + 1) 0 ≠ 0
    · rw [if_pos hoff] at hs
      rw [if_pos hoff.1]
      have hgd1 := hoff.1
      have hgd2 := hoff.2
      cases hm2 : lz4ultra_expand_match_slow inp (i2 + 2)
          (pos2 - (inp.getD i2 0 + 256 * inp.getD (i2 + 1) 0))
          (tok % 16) pos2 b2' outEnd ofe with
      | none =>
        rw [hm2] at hs
        simp at hs
      | some trip2 =>
        obtain ⟨i3, pos3, b2''⟩ := trip2
        rw [hm2] at hs
        dsimp only at hs
        have hsrc : pos2 - (inp.getD i2 0 + 256 * inp.getD (i2 + 1) 0) < pos2 := by omega
        obtain ⟨w, hwge, hposle3, hb2eq, hall⟩ :=
          matchSlow_uniform inp (i2 + 2)
            (pos2 - (inp.getD i2 0 + 256 * inp.getD (i2 + 1) 0))
            (tok % 16) pos2 b2' outEnd ofe i3 pos3 b2'' hsrc hm2
        by_cases hC : tok % 16 < MATCH_RUN_LEN ∧
            8 ≤ inp.getD i2 0 + 256 * inp.getD (i2 + 1) 0 ∧ (pos2 : Int) < ofe
        · rw [if_pos hC]
          obtain ⟨hi3eq, hpos3eq⟩ :=
            matchSlow_scalars inp (i2 + 2)
              (pos2 - (inp.getD i2 0 + 256 * inp.getD (i2 + 1) 0))
              (tok % 16) pos2 b2' outEnd ofe i3 pos3 b2'' hC.1 hm2
          have hscal : pos2 + (MIN_MATCH_SIZE + tok % 16) = pos3 := by omega
          have hsub : pos2 - (pos2 - (inp.getD i2 0 + 256 * inp.getD (i2 + 1) 0))
              = inp.getD i2 0 + 256 * inp.getD (i2 + 1) 0 := by omega
          have hfm : fastMatchCopy b1mid
              (pos2 - (inp.getD i2 0 + 256 * inp.getD (i2 + 1) 0)) pos2
              = perFill b1mid (pos2 - (inp.getD i2 0 + 256 * inp.getD (i2 + 1) 0)) pos2 20 :=
            fastMatchCopy_perFill _ _ _ (by omega)
          have hag3 : agreeBelow pos3
              (perFill b1mid (pos2 - (inp.getD i2 0 + 256 * inp.getD (i2 + 1) 0)) pos2 20)
              b2'' := by
            rw [hb2eq]
            have hm16 : tok % 16 < 16 := Nat.mod_lt _ (by omega)
            have hmix := perFill_agree_mixed b1mid b2'
              (pos2 - (inp.getD i2 0 + 256 * inp.getD (i2 + 1) 0)) pos2
              (pos3 - pos2) 20 w (by omega) (by omega) (by omega) hag2
            have heq : pos2 + (pos3 - pos2) = pos3 := by omega
            rwa [heq] at hmix
          rw [hscal, hfm]
          rw [hi3eq] at hs
          exact IH (i2 + 2) pos3 _ b2'' r2 hag3 hs
        · rw [if_neg hC]
          have hm1 := hall b1mid
          rw [hm1]
          dsimp only
          have hag3 : agreeBelow pos3
              (perFill b1mid (pos2 - (inp.getD i2 0 + 256 * inp.getD (i2 + 1) 0)) pos2 w)
              b2'' := by
            rw [hb2eq]
            have hmix := perFill_agree_mixed b1mid b2'
              (pos2 - (inp.getD i2 0 + 256 * inp.getD (i2 + 1) 0)) pos2
              (pos3 - pos2) w w (by omega) hwge hwge hag2
            have heq : pos2 + (pos3 - pos2) = pos3 := by omega
            rwa [heq] at hmix
          exact IH i3 pos3 _ b2'' r2 hag3 hs
    · rw [if_neg hoff] at hs
      simp at hs
  · rw [if_neg hrem] at hs ⊢
    exact IH i2 pos2 b1mid b2' r2 hag2 hs

/-- The fast loop's unconditional 16-byte literal copy agrees, below the
advanced position, with the buffer produced by the bounds-checked slow
literal copy, whenever the slow copy succeeds with a nibble below 15. -/
theorem litSlow_cong_fast (inp : List Nat) (i nl pos : Nat) (b1 b2 : Buf) (outEnd : Nat)
    (i2 pos2 : Nat) (b2' : Buf) (hnl : nl < LITERALS_RUN_LEN)
    (hm : lz4ultra_expand_literals_slow inp i nl pos b2 outEnd = some (i2, pos2, b2'))
    (hag : agreeBelow pos b1 b2) :
    agreeBelow pos2 (writeLits b1 pos inp i 16) b2' := by
  have hlrl : LITERALS_RUN_LEN = 15 := rfl
  have hscal := litSlow_scalars inp i nl pos b2 outEnd i2 pos2 b2' hnl hm
  unfold lz4ultra_expand_literals_slow at hm
  rw [runChain_small inp i nl LITERALS_RUN_LEN (by omega)] at hm
  dsimp only at hm
  by_cases h0 : nl ≠ 0
  · rw [if_pos h0] at hm
    split at hm
    · simp only [Option.some.injEq, Prod.mk.injEq] at hm
      obtain ⟨h1, h2, h3⟩ := hm
      intro j hj
      rw [← h3]
      unfold writeLits
      by_cases hr : pos ≤ j
      · rw [if_pos (by omega), if_pos (by omega)]
      · rw [if_neg (by omega), if_neg (by omega)]
        exact hag j (by omega)
    · simp at hm
  · rw [if_neg h0] at hm
    simp only [Option.some.injEq, Prod.mk.injEq] at hm
    obtain ⟨h1, h2, h3⟩ := hm
    intro j hj
    rw [← h3]
    rw [writeLits_below _ _ _ _ _ j (by omega)]
    exact hag j (by omega)

/-- Main congruence: whenever the strict slow-only decode succeeds, the
full decoder (fast loop, then slow loop) succeeds from any buffer
agreeing below the current position, with the same scalar result and a
buffer agreeing below the final position. -/
theorem mainCong (inp : List Nat) (outEnd : Nat) (ofe : Int) :
    ∀ (fuel i pos : Nat) (b1 b2 : Buf) (r2 : Nat × Buf),
      agreeBelow pos b1 b2 →
      slowLoopStrict inp outEnd ofe fuel i pos b2 = some r2 →
      ∃ b1', runFrom inp outEnd ofe fuel i pos b1 = some (r2.1, b1') ∧
        agreeBelow r2.1 b1' r2.2 := by
  intro fuel
  induction fuel with
  | zero =>
    intro i pos b1 b2 r2 hag hs
    simp only [slowLoopStrict] at hs
    exact absurd hs (by simp)
  | succ fuel ih =>
    intro i pos b1 b2 r2 hag hs
    by_cases hg : (i : Int) < (inp.length : Int) - 16 ∧ (pos : Int) < ofe
    · have hi : i < inp.length := by
        have := hg.1
        omega
      simp only [slowLoopStrict] at hs
      rw [if_pos hi] at hs
      cases hlit2 : lz4ultra_expand_literals_slow inp (i + 1) (inp.getD i 0 / 16) pos b2 outEnd with
      | none =>
        rw [hlit2] at hs
        simp at hs
      | some trip =>
        obtain ⟨i2, pos2, b2'⟩ := trip
        rw [hlit2] at hs
        dsimp only at hs
        simp only [runFrom]
        rw [if_pos hg]
        by_cases hnl : inp.getD i 0 / 16 < LITERALS_RUN_LEN
        · rw [if_pos hnl]
          dsimp only
          obtain ⟨hi2eq, hpos2eq⟩ := litSlow_scalars inp (i + 1) (inp.getD i 0 / 16) pos b2
            outEnd i2 pos2 b2' hnl hlit2
          have hmid : agreeBelow pos2 (writeLits b1 pos inp (i + 1) 16) b2' :=
            litSlow_cong_fast inp (i + 1) (inp.getD i 0 / 16) pos b1 b2 outEnd i2 pos2 b2'
              hnl hlit2 hag
          rw [show i + 1 + inp.getD i 0 / 16 = i2 by omega]
          rw [show pos + inp.getD i 0 / 16 = pos2 by omega]
          exact runFromTailCong inp outEnd ofe fuel ih (inp.getD i 0) i2 pos2 _ b2' r2 hmid hs
        · rw [if_neg hnl]
          obtain ⟨hple, hkey⟩ := litSlow_uniform inp (i + 1) (inp.getD i 0 / 16) pos b2 outEnd
            i2 pos2 b2' hlit2
          obtain ⟨b1', hlit1, hagf⟩ := hkey b1
          rw [hlit1]
          dsimp only
          exact runFromTailCong inp outEnd ofe fuel ih (inp.getD i 0) i2 pos2 b1' b2' r2
            (hagf hag) hs
    · simp only [runFrom]
      rw [if_neg hg]
      obtain ⟨hslow2, b1', hslow1, hagf⟩ := slowCong inp outEnd ofe (fuel + 1) i pos b1 b2 r2 hag hs
      exact ⟨b1', hslow1, hagf⟩

/- ----------------------------------------------------------------- -/
/- Claim C1.                                                         -/
/- ----------------------------------------------------------------- -/

/-- C1 amended.  Whenever the slow-loop-only decoder that additionally
rejects zero match offsets succeeds (every valid LZ4 stream has nonzero
offsets), the full decoder with the fast loop produces exactly the same
result — same success, same returned size, same decompressed bytes — as
the slow-loop-only decoder, on the same initial buffer. -/
theorem c1_fast_slow_equiv_nonzero_offsets :
    ∀ (inp : List Nat) (o m : Nat) (b : Buf),
      (expandBlockStrict inp o m b).isSome = true →
      expandBlockBytes inp o m b = slowOnlyBytes inp o m b := by
  intro inp o m b hne
  unfold expandBlockStrict at hne
  dsimp only at hne
  cases hstrict : slowLoopStrict inp (o + m) ((↑(o + m) : Int) - 20) (inp.length + 1) 0 o b with
  | none =>
    rw [hstrict] at hne
    simp at hne
  | some r2 =>
    have hagr : agreeBelow o b b := fun j _ => rfl
    obtain ⟨hslow2, b1', hslow1, hagf⟩ :=
      slowCong inp (o + m) ((↑(o + m) : Int) - 20) (inp.length + 1) 0 o b b r2 hagr hstrict
    obtain ⟨b1'', hrun, hagf2⟩ :=
      mainCong inp (o + m) ((↑(o + m) : Int) - 20) (inp.length + 1) 0 o b b r2 hagr hstrict
    unfold expandBlockBytes slowOnlyBytes lz4ultra_decompressor_expand_block_lz4 expandBlockSlowOnly
    dsimp only
    rw [hrun, hslow2]
    simp only [Option.map_some']
    unfold decodedBytes
    dsimp only
    simp only [Option.some.injEq, Prod.mk.injEq, true_and]
    apply List.map_congr_left
    intro k hk
    rw [List.mem_range] at hk
    exact hagf2 (o + k) (by omega)

/-- C1 counterexample.  On the block
`40 61 62 63 64 00 00 90 AA AB AC AD AE AF B0 B1 B2` (17 bytes), whose
first token carries a match with offset 0, the full decoder succeeds
(returning 17) but produces different decompressed bytes than the
slow-loop-only decoder on the same all-zero initial buffer: the fast
loop's unconditional 16-byte literal overcopy leaks input bytes into
positions that the zero-offset match then freezes. -/
theorem c1_fast_loop_changes_result :
    expandBlockBytes
        [0x40, 0x61, 0x62, 0x63, 0x64, 0x00, 0x00, 0x90,
         0xAA, 0xAB, 0xAC, 0xAD, 0xAE, 0xAF, 0xB0, 0xB1, 0xB2] 0 64 bufZero
      = some (17, [0x61, 0x62, 0x63, 0x64, 0, 0, 0x90, 0xAA,
                   0xAA, 0xAB, 0xAC, 0xAD, 0xAE, 0xAF, 0xB0, 0xB1, 0xB2]) ∧
    slowOnlyBytes
        [0x40, 0x61, 0x62, 0x63, 0x64, 0x00, 0x00, 0x90,
         0xAA, 0xAB, 0xAC, 0xAD, 0xAE, 0xAF, 0xB0, 0xB1, 0xB2] 0 64 bufZero
      = some (17, [0x61, 0x62, 0x63, 0x64, 0, 0, 0, 0,
                   0xAA, 0xAB, 0xAC, 0xAD, 0xAE, 0xAF, 0xB0, 0xB1, 0xB2]) ∧
    ([0x61, 0x62, 0x63, 0x64, 0, 0, 0x90, 0xAA,
      0xAA, 0xAB, 0xAC, 0xAD, 0xAE, 0xAF, 0xB0, 0xB1, 0xB2] : List Nat)
      ≠ [0x61, 0x62, 0x63, 0x64, 0, 0, 0, 0,
         0xAA, 0xAB, 0xAC, 0xAD, 0xAE, 0xAF, 0xB0, 0xB1, 0xB2] := by decide

/-- Witness for the amended C1 at a concrete one-token block. -/
theorem c1_fast_slow_equiv_witness :
    (expandBlockStrict [0x00] 0 4 bufZero).isSome = true ∧
    expandBlockBytes [0x00] 0 4 bufZero = slowOnlyBytes [0x00] 0 4 bufZero :=
  ⟨by decide, c1_fast_slow_equiv_nonzero_offsets [0x00] 0 4 bufZero (by decide)⟩
